import Mathlib

/-!
Shallow embedding of `src/Gui/Background/BackgroundWidget.cpp` from the VPaint
repository: the anonymous-namespace `ImageUrlValidator` (image-URL syntax check
and fixup), the wildcard-pattern detection of
`BackgroundWidget::processImageBrowseButtonClicked_`, and the widget's
checkpoint / update-guard state machine.  Qt strings (`QString`) are modelled
as lists of characters; `QChar::isDigit` is modelled by `Char.isDigit`
(the two agree on ASCII filenames).
-/

/-- A Qt `QString`, modelled as a list of characters. -/
abbrev QStr := List Char

namespace ImageUrlValidator

/-- The relevant values of `QValidator::State`. -/
inductive State where
  | Invalid
  | Intermediate
  | Acceptable
deriving DecidableEq

/-- The scanning loop of `ImageUrlValidator::validate`: walks the input
counting wildcards; a second `*`, or a `/` once a wildcard has been seen,
makes the input `Intermediate`; otherwise the input is `Acceptable`. -/
def validateLoop : Nat → QStr → State
  | _, [] => State.Acceptable
  | wildcardCount, c :: rest =>
    if c = '*' then
      if wildcardCount = 0 then validateLoop (wildcardCount + 1) rest
      else State.Intermediate
    else if c = '/' ∧ 0 < wildcardCount then State.Intermediate
    else validateLoop wildcardCount rest

/-- `ImageUrlValidator::validate` (the cursor-position argument is unused by
the source). -/
def validate (input : QStr) : State := validateLoop 0 input

/-- `QString::lastIndexOf(QChar)`: index of the last occurrence of the
character, `-1` when it does not occur. -/
def lastIndexOf (c : Char) : QStr → Int
  | [] => -1
  | x :: xs =>
    let r := lastIndexOf c xs
    if 0 ≤ r then r + 1 else if x = c then 0 else -1

/-- The copying loop of `ImageUrlValidator::fixup`: appends every character
except the `*`s at indices other than `j`; the parameter `i` is the index of
the head of the remaining input. -/
def keepOnly (j : Int) : Int → QStr → QStr
  | _, [] => []
  | i, c :: rest =>
    if c ≠ '*' ∨ i = j then c :: keepOnly j (i + 1) rest
    else keepOnly j (i + 1) rest

/-- `ImageUrlValidator::fixup`: drops every `*`, except the last one when no
`/` occurs after it. -/
def fixup (input : QStr) : QStr :=
  let j := lastIndexOf '*' input
  let k := lastIndexOf '/' input
  let j := if j < k then -1 else j
  keepOnly j 0 input

theorem lastIndexOf_cons (c x : Char) (xs : QStr) :
    lastIndexOf c (x :: xs) =
      if 0 ≤ lastIndexOf c xs then lastIndexOf c xs + 1
      else if x = c then 0 else -1 := rfl

theorem keepOnly_cons (j i : Int) (c : Char) (rest : QStr) :
    keepOnly j i (c :: rest) =
      if c ≠ '*' ∨ i = j then c :: keepOnly j (i + 1) rest
      else keepOnly j (i + 1) rest := rfl

theorem lastIndexOf_eq_neg_one (c : Char) (s : QStr) (h : c ∉ s) :
    lastIndexOf c s = -1 := by
  induction s with
  | nil => rfl
  | cons x xs ih =>
    have hx : x ≠ c := fun e => h (e ▸ List.mem_cons_self x xs)
    have hxs : c ∉ xs := fun m => h (List.mem_cons_of_mem x m)
    simp [lastIndexOf, ih hxs, hx]

theorem zero_le_lastIndexOf (c : Char) (s : QStr) (h : c ∈ s) :
    0 ≤ lastIndexOf c s := by
  induction s with
  | nil => simp at h
  | cons x xs ih =>
    by_cases hm : c ∈ xs
    · have hr := ih hm
      simp only [lastIndexOf]
      split_ifs
      all_goals omega
    · have hx : x = c := by
        rcases List.mem_cons.mp h with h1 | h2
        · exact h1.symm
        · exact absurd h2 hm
      have hr := lastIndexOf_eq_neg_one c xs hm
      simp [lastIndexOf, hr, hx]

theorem lastIndexOf_lt_length (c : Char) (s : QStr) :
    lastIndexOf c s < (s.length : Int) := by
  induction s with
  | nil => simp [lastIndexOf]
  | cons x xs ih =>
    simp only [lastIndexOf, List.length_cons]
    split_ifs <;> push_cast <;> omega

theorem lastIndexOf_append_self (c : Char) (a b : QStr) (hb : c ∉ b) :
    lastIndexOf c (a ++ c :: b) = (a.length : Int) := by
  induction a with
  | nil =>
    rw [List.nil_append, lastIndexOf_cons,
      lastIndexOf_eq_neg_one c b hb]
    norm_num
  | cons x a' ih =>
    have h0 : (0 : Int) ≤ a'.length := Int.natCast_nonneg _
    rw [List.cons_append, lastIndexOf_cons, ih, if_pos h0,
      List.length_cons]
    push_cast
    ring

theorem lastIndexOf_append_of_not_mem (c x : Char) (a b : QStr) (hb : c ∉ b)
    (hx : x ≠ c) :
    lastIndexOf c (a ++ x :: b) = lastIndexOf c a := by
  induction a with
  | nil =>
    rw [List.nil_append, lastIndexOf_cons,
      lastIndexOf_eq_neg_one c b hb]
    simp [lastIndexOf, hx]
  | cons y a' ih =>
    rw [List.cons_append, lastIndexOf_cons, ih, lastIndexOf_cons]

theorem lastIndexOf_append_of_mem (c x : Char) (a b : QStr)
    (hb : c ∈ b) :
    lastIndexOf c (a ++ x :: b) = (a.length : Int) + 1 + lastIndexOf c b := by
  induction a with
  | nil =>
    have h0 := zero_le_lastIndexOf c b hb
    rw [List.nil_append, lastIndexOf_cons, if_pos h0, List.length_nil]
    push_cast
    ring
  | cons y a' ih =>
    have h0 := zero_le_lastIndexOf c b hb
    rw [List.cons_append, lastIndexOf_cons, ih, if_pos (by omega),
      List.length_cons]
    push_cast
    ring

theorem keepOnly_of_lt (j i : Int) (s : QStr) (h : j < i) :
    keepOnly j i s = s.filter (fun c => c ≠ '*') := by
  induction s generalizing i with
  | nil => rfl
  | cons c rest ih =>
    have hij : i ≠ j := by omega
    by_cases hc : c = '*'
    · subst hc
      rw [keepOnly_cons, if_neg (by push_neg; exact ⟨rfl, hij⟩)]
      rw [ih (i + 1) (by omega)]
      simp [List.filter_cons]
    · rw [keepOnly_cons, if_pos (Or.inl hc)]
      rw [ih (i + 1) (by omega)]
      simp [List.filter_cons, hc]

theorem filter_star_eq_self {s : QStr} (h : '*' ∉ s) :
    s.filter (fun c => c ≠ '*') = s :=
  List.filter_eq_self.mpr (fun c hc => by
    simp only [ne_eq, decide_not, Bool.not_eq_true', decide_eq_false_iff_not]
    exact fun e => h (e ▸ hc))

theorem star_not_mem_filter (s : QStr) :
    '*' ∉ s.filter (fun c => c ≠ '*') := by
  simp [List.mem_filter]

theorem keepOnly_split (a b : QStr) (hb : '*' ∉ b) (i : Int) :
    keepOnly (i + a.length) i (a ++ '*' :: b) =
      a.filter (fun c => c ≠ '*') ++ '*' :: b := by
  induction a generalizing i with
  | nil =>
    simp only [List.nil_append, List.length_nil, List.filter_nil]
    rw [keepOnly_cons, if_pos (Or.inr (by push_cast; ring))]
    rw [keepOnly_of_lt _ _ b (by push_cast; omega)]
    rw [filter_star_eq_self hb]
  | cons x a' ih =>
    have hij : i ≠ i + ((x :: a').length : Int) := by
      simp only [List.length_cons]
      push_cast
      omega
    have harg : i + ((x :: a').length : Int) = i + 1 + (a'.length : Int) := by
      simp only [List.length_cons]
      push_cast
      ring
    by_cases hx : x = '*'
    · subst hx
      rw [List.cons_append, keepOnly_cons,
        if_neg (by push_neg; exact ⟨rfl, hij⟩), harg, ih (i + 1)]
      simp [List.filter_cons]
    · rw [List.cons_append, keepOnly_cons, if_pos (Or.inl hx), harg,
        ih (i + 1)]
      simp [List.filter_cons, hx]

/-- Splitting a list at the last occurrence of an element. -/
theorem exists_last_split {c : Char} {s : QStr} (h : c ∈ s) :
    ∃ a b, s = a ++ c :: b ∧ c ∉ b := by
  induction s with
  | nil => simp at h
  | cons x xs ih =>
    by_cases hm : c ∈ xs
    · obtain ⟨a, b, rfl, hb⟩ := ih hm
      exact ⟨x :: a, b, rfl, hb⟩
    · have hx : x = c := by
        rcases List.mem_cons.mp h with h1 | h2
        · exact h1.symm
        · exact absurd h2 hm
      exact ⟨[], xs, by rw [hx]; rfl, hm⟩

/-- Splitting a list at the first occurrence of an element. -/
theorem exists_first_split {c : Char} {s : QStr} (h : c ∈ s) :
    ∃ a b, s = a ++ c :: b ∧ c ∉ a := by
  induction s with
  | nil => simp at h
  | cons x xs ih =>
    by_cases hx : x = c
    · exact ⟨[], xs, by rw [hx]; rfl, List.not_mem_nil c⟩
    · have hm : c ∈ xs := by
        rcases List.mem_cons.mp h with h1 | h2
        · exact absurd h1.symm hx
        · exact h2
      obtain ⟨a, b, rfl, ha⟩ := ih hm
      refine ⟨x :: a, b, rfl, ?_⟩
      intro hmem
      rcases List.mem_cons.mp hmem with h1 | h2
      · exact hx h1.symm
      · exact ha h2

theorem fixup_of_not_mem {s : QStr} (h : '*' ∉ s) : fixup s = s := by
  have hj := lastIndexOf_eq_neg_one '*' s h
  have hlt : ∀ k : Int, (if (-1 : Int) < k then (-1 : Int) else -1) = -1 := by
    intro k
    split_ifs <;> rfl
  simp only [fixup, hj, hlt]
  rw [keepOnly_of_lt _ _ s (by omega)]
  exact filter_star_eq_self h

theorem fixup_split_slash (a b : QStr) (hb : '*' ∉ b) (hs : '/' ∈ b) :
    fixup (a ++ '*' :: b) =
      (a ++ '*' :: b).filter (fun c => c ≠ '*') := by
  have hj := lastIndexOf_append_self '*' a b hb
  have hk := lastIndexOf_append_of_mem '/' '*' a b hs
  have h0 := zero_le_lastIndexOf '/' b hs
  simp only [fixup, hj, hk]
  rw [if_pos (by omega)]
  rw [keepOnly_of_lt _ _ _ (by omega)]

theorem fixup_split_no_slash (a b : QStr) (hb : '*' ∉ b) (hs : '/' ∉ b) :
    fixup (a ++ '*' :: b) = a.filter (fun c => c ≠ '*') ++ '*' :: b := by
  have hj := lastIndexOf_append_self '*' a b hb
  have hk := lastIndexOf_append_of_not_mem '/' '*' a b hs (by decide)
  have hlt := lastIndexOf_lt_length '/' a
  simp only [fixup, hj, hk]
  rw [if_neg (by omega)]
  have := keepOnly_split a b hb 0
  rw [show (0 : Int) + (a.length : Int) = (a.length : Int) by ring] at this
  exact this

/-- C3: applying `ImageUrlValidator::fixup` twice yields the same string as
applying it once — `fixup` is idempotent. -/
theorem fixup_idempotent (s : QStr) : fixup (fixup s) = fixup s := by
  by_cases h : '*' ∈ s
  · obtain ⟨a, b, rfl, hb⟩ := exists_last_split h
    by_cases hs : '/' ∈ b
    · rw [fixup_split_slash a b hb hs]
      exact fixup_of_not_mem (star_not_mem_filter _)
    · rw [fixup_split_no_slash a b hb hs]
      rw [fixup_split_no_slash (a.filter (fun c => c ≠ '*')) b hb hs]
      rw [filter_star_eq_self (star_not_mem_filter a)]
  · rw [fixup_of_not_mem h, fixup_of_not_mem h]

/-- C4: `fixup` keeps at most one `*`, preserves every other character in
order, removes all wildcards when each is followed by a `/` somewhere, and
keeps exactly the last wildcard when it is not followed by a path
separator. -/
theorem fixup_spec (s : QStr) :
    (fixup s).count '*' ≤ 1 ∧
    (fixup s).filter (fun c => c ≠ '*') = s.filter (fun c => c ≠ '*') ∧
    ((∀ a b, s = a ++ '*' :: b → '/' ∈ b) → '*' ∉ fixup s) ∧
    (∀ a b, s = a ++ '*' :: b → '*' ∉ b → '/' ∉ b →
      fixup s = a.filter (fun c => c ≠ '*') ++ '*' :: b) := by
  refine ⟨?_, ?_, ?_, ?_⟩
  · by_cases h : '*' ∈ s
    · obtain ⟨a, b, rfl, hb⟩ := exists_last_split h
      by_cases hs : '/' ∈ b
      · rw [fixup_split_slash a b hb hs]
        exact le_trans (le_of_eq (List.count_eq_zero.mpr
          (star_not_mem_filter _))) (by omega)
      · rw [fixup_split_no_slash a b hb hs]
        rw [List.count_append, List.count_cons]
        rw [List.count_eq_zero.mpr (star_not_mem_filter a),
          List.count_eq_zero.mpr hb]
        simp
    · rw [fixup_of_not_mem h]
      exact le_trans (le_of_eq (List.count_eq_zero.mpr h)) (by omega)
  · by_cases h : '*' ∈ s
    · obtain ⟨a, b, rfl, hb⟩ := exists_last_split h
      by_cases hs : '/' ∈ b
      · rw [fixup_split_slash a b hb hs]
        rw [filter_star_eq_self (star_not_mem_filter _)]
      · rw [fixup_split_no_slash a b hb hs]
        rw [List.filter_append, List.filter_append,
          filter_star_eq_self (star_not_mem_filter a)]
    · rw [fixup_of_not_mem h]
  · intro hall
    by_cases h : '*' ∈ s
    · obtain ⟨a, b, rfl, hb⟩ := exists_last_split h
      have hs : '/' ∈ b := hall a b rfl
      rw [fixup_split_slash a b hb hs]
      exact star_not_mem_filter _
    · rw [fixup_of_not_mem h]
      exact h
  · intro a b hsplit hb hs
    rw [hsplit]
    exact fixup_split_no_slash a b hb hs

theorem validateLoop_one (s : QStr) :
    validateLoop 1 s = State.Acceptable ↔ ('*' ∉ s ∧ '/' ∉ s) := by
  induction s with
  | nil => simp [validateLoop]
  | cons c rest ih =>
    by_cases hc : c = '*'
    · subst hc
      simp [validateLoop]
    · by_cases hs : c = '/'
      · subst hs
        simp [validateLoop]
      · have hstep : validateLoop 1 (c :: rest) = validateLoop 1 rest := by
          simp only [validateLoop]
          rw [if_neg hc, if_neg (fun h => hs h.1)]
        rw [hstep, ih]
        constructor
        · rintro ⟨h1, h2⟩
          refine ⟨fun hm => ?_, fun hm => ?_⟩
          · rcases List.mem_cons.mp hm with e | e
            · exact hc e.symm
            · exact h1 e
          · rcases List.mem_cons.mp hm with e | e
            · exact hs e.symm
            · exact h2 e
        · rintro ⟨h1, h2⟩
          exact ⟨fun m => h1 (List.mem_cons_of_mem c m),
            fun m => h2 (List.mem_cons_of_mem c m)⟩

theorem validateLoop_zero (s : QStr) :
    validateLoop 0 s = State.Acceptable ↔
      (∀ a b, s = a ++ '*' :: b → '*' ∉ b ∧ '/' ∉ b) := by
  induction s with
  | nil =>
    constructor
    · intro _ a b hab
      exact absurd hab (by simp)
    · intro _
      rfl
  | cons c rest ih =>
    by_cases hc : c = '*'
    · subst hc
      have hstep : validateLoop 0 ('*' :: rest) = validateLoop 1 rest := by
        simp [validateLoop]
      rw [hstep, validateLoop_one]
      constructor
      · rintro ⟨h1, h2⟩ a b hab
        cases a with
        | nil =>
          simp only [List.nil_append, List.cons.injEq] at hab
          rw [← hab.2]
          exact ⟨h1, h2⟩
        | cons x a' =>
          simp only [List.cons_append, List.cons.injEq] at hab
          rw [hab.2] at h1
          exact absurd (List.mem_append_right a'
            (List.mem_cons_self '*' b)) h1
      · intro hall
        exact hall [] rest rfl
    · have hstep : validateLoop 0 (c :: rest) = validateLoop 0 rest := by
        simp only [validateLoop]
        rw [if_neg hc, if_neg (by push_neg; intro _; omega)]
      rw [hstep, ih]
      constructor
      · intro hall a b hab
        cases a with
        | nil =>
          simp only [List.nil_append, List.cons.injEq] at hab
          exact absurd hab.1 hc
        | cons x a' =>
          simp only [List.cons_append, List.cons.injEq] at hab
          exact hall a' b hab.2
      · intro hall a b hab
        exact hall (c :: a) b (by rw [hab]; rfl)

theorem validateLoop_acc_or_int (wc : Nat) (s : QStr) :
    validateLoop wc s = State.Acceptable ∨
      validateLoop wc s = State.Intermediate := by
  induction s generalizing wc with
  | nil => exact Or.inl rfl
  | cons c rest ih =>
    simp only [validateLoop]
    split_ifs
    · exact ih (wc + 1)
    · exact Or.inr rfl
    · exact Or.inr rfl
    · exact ih wc

theorem count_le_one_iff (c : Char) (s : QStr) :
    s.count c ≤ 1 ↔ ∀ a b, s = a ++ c :: b → c ∉ b := by
  constructor
  · rintro h a b rfl hmem
    rw [List.count_append, List.count_cons] at h
    have h1 := List.one_le_count_iff.mpr hmem
    rw [if_pos (beq_self_eq_true c)] at h
    omega
  · intro hall
    by_contra h
    push_neg at h
    have hmem : c ∈ s := by
      apply List.one_le_count_iff.mp
      omega
    obtain ⟨a, b, rfl, ha⟩ := exists_first_split hmem
    rw [List.count_append, List.count_cons] at h
    have ha0 : a.count c = 0 := List.count_eq_zero.mpr ha
    have hb : 1 ≤ b.count c := by
      rw [if_pos (beq_self_eq_true c)] at h
      omega
    exact hall a b rfl (List.one_le_count_iff.mp hb)

/-- C5 (amended): `validate` returns `Acceptable` exactly for the strings
with at most one `*` and no `/` occurring anywhere after the wildcard, and
returns `Intermediate` for every other string. -/
theorem validate_spec (s : QStr) :
    (validate s = State.Acceptable ↔
      (s.count '*' ≤ 1 ∧ ∀ a b, s = a ++ '*' :: b → '/' ∉ b)) ∧
    (validate s = State.Acceptable ∨ validate s = State.Intermediate) := by
  constructor
  · rw [validate, validateLoop_zero]
    constructor
    · intro hall
      refine ⟨(count_le_one_iff '*' s).mpr (fun a b hab => (hall a b hab).1),
        fun a b hab => (hall a b hab).2⟩
    · rintro ⟨hcount, hslash⟩ a b hab
      exact ⟨(count_le_one_iff '*' s).mp hcount a b hab, hslash a b hab⟩
  · exact validateLoop_acc_or_int 0 s

/-- C5 counterexample: the string `*a/` has a single wildcard which is not
immediately followed by `/`, so the claim says `Acceptable`, but `validate`
returns `Intermediate` because a `/` occurs (non-adjacently) after the
wildcard. -/
theorem validate_claim_cex :
    validate ['*', 'a', '/'] = State.Intermediate ∧
    (['*', 'a', '/'] : QStr).count '*' ≤ 1 ∧
    (∀ i, i < 3 →
      (['*', 'a', '/'] : QStr).getD i ' ' = '*' →
      (['*', 'a', '/'] : QStr).getD (i + 1) ' ' ≠ '/') := by
  decide

end ImageUrlValidator

namespace BackgroundWidget

/-- `QString::left(n)`: the `n` leftmost characters (the whole string when
`n` exceeds its size). -/
def qleft (s : QStr) (n : Nat) : QStr := s.take n

/-- `QString::right(n)`: the `n` rightmost characters (the whole string when
`n` exceeds its size). -/
def qright (s : QStr) (n : Nat) : QStr := s.drop (s.length - n)

/-- `QString::chop(n)`: removes the `n` last characters (clears the string
when `n` exceeds its size). -/
def qchop (s : QStr) (n : Nat) : QStr := s.take (s.length - n)

/-- The first loop of the wildcard detection in
`BackgroundWidget::processImageBrowseButtonClicked_`: length of the largest
shared prefix of the first two filenames. -/
def sharedPrefixLength : QStr → QStr → Nat
  | a :: as, b :: bs => if a = b then sharedPrefixLength as bs + 1 else 0
  | _, _ => 0

/-- Second loop: chop digits at the end of the prefix. -/
def chopDigits (s0 : QStr) : Nat → Nat
  | 0 => 0
  | p + 1 => if (s0.getD p ' ').isDigit then chopDigits s0 p else p + 1

/-- Third step: chop a trailing minus sign from the prefix, unless every
selected filename has a `-` at that position (then it is kept as a
separating dash). -/
def chopMinus (filenames : List QStr) (s0 : QStr) (p : Nat) : Nat :=
  match p with
  | 0 => 0
  | q + 1 =>
    if s0.getD q ' ' = '-' then
      if filenames.all (fun f => decide (q + 1 ≤ f.length ∧ f.getD q ' ' = '-'))
      then q + 1
      else q
    else q + 1

/-- Fourth step: length of the integer wildcard of the first filename,
starting right after the prefix (an optional minus sign followed by
consecutive digits). -/
def wildcardLength (s0 : QStr) (p : Nat) : Nat :=
  if s0.length = p then 0
  else if s0.getD p ' ' = '-' then
    1 + ((s0.drop (p + 1)).takeWhile Char.isDigit).length
  else if (s0.getD p ' ').isDigit then
    ((s0.drop p).takeWhile Char.isDigit).length
  else 0

/-- The prefix length inferred by the wildcard detection: shared prefix of
the first two filenames, trailing digits chopped, then a trailing dash
chopped unless all filenames share it. -/
def inferredPrefixLen (filenames : List QStr) (s0 s1 : QStr) : Nat :=
  chopMinus filenames s0 (chopDigits s0 (sharedPrefixLength s0 s1))

/-- Value of an ASCII digit string, most significant digit first. -/
def digitsToNat (l : QStr) : Nat :=
  l.foldl (fun acc c => 10 * acc + (c.toNat - 48)) 0

/-- Modelled from the spec: `QString::toInt(&ok)` (C locale, base 10) — the
conversion succeeds exactly on an optional sign followed by at least one
ASCII digit whose value fits in a signed 32-bit `int`.  `QString` itself is
not part of the excerpt; this models its documented behaviour. -/
def toIntOk (w : QStr) : Bool :=
  match w with
  | '-' :: digits =>
    !digits.isEmpty && digits.all Char.isDigit &&
      decide (digitsToNat digits ≤ 2 ^ 31)
  | '+' :: digits =>
    !digits.isEmpty && digits.all Char.isDigit &&
      decide (digitsToNat digits ≤ 2 ^ 31 - 1)
  | digits =>
    !digits.isEmpty && digits.all Char.isDigit &&
      decide (digitsToNat digits ≤ 2 ^ 31 - 1)

/-- The per-file consistency test of the detection loop: the file must start
with the prefix, end with the suffix, and the middle must be empty (the
fallback name) or convert to an `int`. -/
def isConsistent (p sl : Nat) (pre suf : QStr) (f : QStr) : Bool :=
  if qleft f p = pre ∧ qright f sl = suf then
    let w := qchop (f.drop p) sl
    if w.isEmpty then true else toIntOk w
  else false

/-- The `inconsistentFilenames` string accumulated by the detection loop:
each inconsistent filename followed by a newline, with the final newline
chopped. -/
def inconsistentConcat (p sl : Nat) (pre suf : QStr)
    (filenames : List QStr) : QStr :=
  qchop (filenames.foldl
    (fun acc f =>
      if isConsistent p sl pre suf f then acc else acc ++ f ++ ['\n'])
    []) 1

/-- The wildcard detection of
`BackgroundWidget::processImageBrowseButtonClicked_`, applied to the
document-relative filenames returned by the file dialog: yields the inferred
image URL together with the warning text listing inconsistent filenames
(empty when no warning is shown). -/
def detectWildcard (filenames : List QStr) : QStr × QStr :=
  match filenames with
  | [] => ([], [])
  | [f0] => (f0, [])
  | s0 :: s1 :: rest =>
    let p := inferredPrefixLen (s0 :: s1 :: rest) s0 s1
    let wl := wildcardLength s0 p
    let sl := s0.length - p - wl
    let pre := qleft s0 p
    let suf := qright s0 sl
    (pre ++ '*' :: suf, inconsistentConcat p sl pre suf (s0 :: s1 :: rest))

/-- C2: on `["image1.png","image2.png","image10.png"]` the detection yields
the pattern `"image*.png"`, and on `["img-1.png","img-2.png"]` it yields
`"img-*.png"`, the dash being retained as a separator because every
selected filename has it. -/
theorem wildcard_inference_examples :
    (detectWildcard ["image1.png".toList, "image2.png".toList,
      "image10.png".toList]).1 = "image*.png".toList ∧
    (detectWildcard ["img-1.png".toList, "img-2.png".toList]).1 =
      "img-*.png".toList := by
  decide

/-- The concatenation `f₁ ++ "\n" ++ f₂ ++ "\n" ++ ...` produced by the
warning-accumulation loop before the final chop. -/
def concatNL (m : List QStr) : QStr :=
  m.foldr (fun f r => f ++ '\n' :: r) []

/-- A list of filenames joined by single newlines (no trailing newline):
the shape of the warning text listing exactly those files. -/
def newlineSeparated : List QStr → QStr
  | [] => []
  | [f] => f
  | f :: rest => f ++ '\n' :: newlineSeparated rest

theorem concatNL_cons (f : QStr) (m : List QStr) :
    concatNL (f :: m) = f ++ '\n' :: concatNL m := rfl

theorem foldl_warn (P : QStr → Bool) (l : List QStr) (acc : QStr) :
    l.foldl (fun a f => if P f then a else a ++ f ++ ['\n']) acc =
      acc ++ concatNL (l.filter (fun f => !P f)) := by
  induction l generalizing acc with
  | nil => simp [concatNL]
  | cons f rest ih =>
    rw [List.foldl_cons]
    by_cases hP : P f
    · rw [if_pos hP, ih, List.filter_cons, if_neg (by simp [hP])]
    · rw [if_neg hP, ih, List.filter_cons, if_pos (by simp [hP]),
        concatNL_cons]
      simp [List.append_assoc]


theorem newlineSeparated_cons₂ (f g : QStr) (rest : List QStr) :
    newlineSeparated (f :: g :: rest) =
      f ++ '\n' :: newlineSeparated (g :: rest) := rfl

theorem qchop_concatNL (m : List QStr) :
    qchop (concatNL m) 1 = newlineSeparated m := by
  induction m with
  | nil => rfl
  | cons f rest ih =>
    cases rest with
    | nil =>
      show qchop (f ++ ['\n']) 1 = f
      simp [qchop, List.length_append, List.take_append_eq_append_take,
        List.take_of_length_le (le_refl f.length)]
    | cons g rest' =>
      rw [concatNL_cons, newlineSeparated_cons₂]
      have hlen : 1 ≤ (concatNL (g :: rest')).length := by
        rw [concatNL_cons, List.length_append, List.length_cons]
        omega
      rw [qchop, List.length_append, List.length_cons]
      have harith : f.length + ((concatNL (g :: rest')).length + 1) - 1 =
          f.length + (concatNL (g :: rest')).length := by omega
      rw [harith, List.take_append_eq_append_take,
        List.take_of_length_le (by omega)]
      have harith2 : f.length + (concatNL (g :: rest')).length - f.length =
          ((concatNL (g :: rest')).length - 1) + 1 := by omega
      rw [harith2, List.take_succ_cons]
      rw [← qchop, ih]

/-- The warning string of the detection loop lists exactly the filenames
failing the consistency test, separated by newlines. -/
theorem inconsistentConcat_eq (p sl : Nat) (pre suf : QStr)
    (filenames : List QStr) :
    inconsistentConcat p sl pre suf filenames =
      newlineSeparated
        (filenames.filter (fun f => !(isConsistent p sl pre suf f))) := by
  rw [inconsistentConcat, foldl_warn, List.nil_append, qchop_concatNL]

/-- The matching criterion as worded by the claim: a selected file matches
the inferred pattern when it is literally `prefix ++ suffix` (the fallback
name) or `prefix ++ w ++ suffix` for an integer wildcard `w`. -/
def specMatches (pre suf f : QStr) : Prop :=
  f = pre ++ suf ∨ ∃ w, toIntOk w = true ∧ f = pre ++ w ++ suf

/-- C6 counterexample: selecting `["ab1b","ab2b","ab"]` infers the pattern
`"ab*b"`; the file `"ab"` matches neither `"ab"++"b"` nor
`"ab"++w++"b"`, yet the warning is empty because the code's overlapping
prefix/suffix test accepts `"ab"` as the fallback name — so the warning
does not list exactly the non-matching files. -/
theorem browse_warning_claim_cex :
    (detectWildcard [['a', 'b', '1', 'b'], ['a', 'b', '2', 'b'],
      ['a', 'b']]).1 = ['a', 'b', '*', 'b'] ∧
    (detectWildcard [['a', 'b', '1', 'b'], ['a', 'b', '2', 'b'],
      ['a', 'b']]).2 = [] ∧
    ¬ specMatches ['a', 'b'] ['b'] ['a', 'b'] := by
  refine ⟨by decide, by decide, ?_⟩
  rintro (h | ⟨w, hw, hf⟩)
  · exact absurd h (by decide)
  · have hlen := congrArg List.length hf
    simp only [List.length_append, List.length_cons,
      List.length_nil] at hlen
    omega

end BackgroundWidget

/-- `Color` (RGBA), as stored by the background's color property. -/
structure Color where
  r : Nat
  g : Nat
  b : Nat
  a : Nat
deriving DecidableEq

/-- `Background::SizeType` (combo order: fit to canvas, manual). -/
inductive SizeType where
  | Cover
  | Manual
deriving DecidableEq

/-- `Background::RepeatType` (combo order: no, horizontally, vertically,
both). -/
inductive RepeatType where
  | NoRepeat
  | Horizontally
  | Vertically
  | Both
deriving DecidableEq

/-- Modelled from the spec: the `Background` document object (its header is
not part of the excerpt).  Spec §4.5 lists its property bundle: color,
image-URL pattern, position, size type, size, repeat type, opacity, hold.
Spin-box values (`double` in Qt) are modelled as rationals: the widget only
stores and compares them, never computes with them. -/
structure Background where
  color : Color
  imageUrl : QStr
  position : ℚ × ℚ
  sizeType : SizeType
  size : ℚ × ℚ
  repeatType : RepeatType
  opacity : ℚ
  hold : Bool
deriving DecidableEq

/-- Modelled from the spec: `Background::data()` serializes the property
bundle; modelled as the full property record. -/
def Background.data (b : Background) : Background := b

namespace BackgroundWidget

/-- The state of a `BackgroundWidget` together with its bound `Background`
and the number of undo entries recorded through `Background::emitCheckpoint`
(each call records one entry in the scene's undo history, spec §4.5). -/
structure WidgetState where
  background : Option Background
  dataBeforeEditing : Background
  isUpdatingFromBackground : Bool
  isBeingEdited : Bool
  undoCount : Nat
  colorSelector : Color
  imageLineEdit : QStr
  leftSpin : ℚ
  topSpin : ℚ
  sizeCombo : SizeType
  widthSpin : ℚ
  heightSpin : ℚ
  repeatCombo : RepeatType
  opacitySpin : ℚ
  holdCheck : Bool
deriving DecidableEq

/-- `BackgroundWidget::updateFromBackground_`: syncs every control from the
bound background under the `isUpdatingFromBackground_` guard, caches
`dataBeforeEditing_` unless an edit is in progress, and clears the guard.
The widget-value setters inside the real function fire change signals whose
handlers test the guard and return immediately (proved below), so the
dispatch is modelled as the plain field sync. -/
def updateFromBackground (s : WidgetState) : WidgetState :=
  match s.background with
  | none => s
  | some b =>
    { s with
      colorSelector := b.color
      imageLineEdit := b.imageUrl
      leftSpin := b.position.1
      topSpin := b.position.2
      sizeCombo := b.sizeType
      widthSpin := b.size.1
      heightSpin := b.size.2
      repeatCombo := b.repeatType
      opacitySpin := b.opacity
      holdCheck := b.hold
      dataBeforeEditing :=
        if s.isBeingEdited then s.dataBeforeEditing else b.data
      isUpdatingFromBackground := false }

/-- `BackgroundWidget::setBackground` (connection bookkeeping and widget
enabling aside): stores the pointer and syncs the controls. -/
def setBackground (bOpt : Option Background) (s : WidgetState) :
    WidgetState :=
  updateFromBackground { s with background := bOpt }

/-- `BackgroundWidget::emitCheckpoint_`: fires `Background::emitCheckpoint`
(recording one undo entry) only when the serialized data differs from the
cached baseline, resetting the baseline first. -/
def emitCheckpoint (s : WidgetState) : WidgetState :=
  match s.background with
  | none => s
  | some b =>
    if b.data = s.dataBeforeEditing then s
    else
      { s with
        dataBeforeEditing := b.data
        undoCount := s.undoCount + 1 }

/-- A background property setter followed by Qt's synchronous `changed()`
dispatch into the widget's `updateFromBackground_` slot.  Modelled from the
spec: setters fire `changed` when the property value actually changed.
`b` is the background value before the assignment, `bNew` after. -/
def applySetter (s : WidgetState) (b bNew : Background) : WidgetState :=
  let s1 : WidgetState := { s with background := some bNew }
  if bNew = b then s1 else updateFromBackground s1

/-- The shared shape of every `BackgroundWidget::process*` slot: do nothing
unless a background is bound and the update guard is down; otherwise set
`isBeingEdited_`, run the property mutation (with its `changed` dispatch),
clear `isBeingEdited_`, and — for the slots that do so — call
`emitCheckpoint_`. -/
def handleChange (ck : Bool) (upd : WidgetState → Background → Background)
    (s : WidgetState) : WidgetState :=
  match s.background with
  | none => s
  | some b =>
    if s.isUpdatingFromBackground then s
    else
      let s1 := applySetter { s with isBeingEdited := true } b (upd s b)
      let s2 : WidgetState := { s1 with isBeingEdited := false }
      if ck then emitCheckpoint s2 else s2

/-- `BackgroundWidget::processColorSelectorColorChanged_`. -/
def processColorSelectorColorChanged (newColor : Color) (s : WidgetState) :
    WidgetState :=
  handleChange true (fun _ b => { b with color := newColor }) s

/-- `BackgroundWidget::processImageLineEditEditingFinished_`. -/
def processImageLineEditEditingFinished (s : WidgetState) : WidgetState :=
  handleChange true (fun st b => { b with imageUrl := st.imageLineEdit }) s

/-- `BackgroundWidget::processImageBrowseButtonClicked_`, applied to the
document-relative filenames returned by the file dialog. -/
def processImageBrowseButtonClicked (filenames : List QStr)
    (s : WidgetState) : WidgetState :=
  handleChange true
    (fun _ b => { b with imageUrl := (detectWildcard filenames).1 }) s

/-- `BackgroundWidget::processLeftSpinBoxValueChanged_` (no checkpoint). -/
def processLeftSpinBoxValueChanged (newLeft : ℚ) (s : WidgetState) :
    WidgetState :=
  handleChange false
    (fun _ b => { b with position := (newLeft, b.position.2) }) s

/-- `BackgroundWidget::processTopSpinBoxValueChanged_` (no checkpoint). -/
def processTopSpinBoxValueChanged (newTop : ℚ) (s : WidgetState) :
    WidgetState :=
  handleChange false
    (fun _ b => { b with position := (b.position.1, newTop) }) s

/-- `BackgroundWidget::processWidthSpinBoxValueChanged_` (no checkpoint). -/
def processWidthSpinBoxValueChanged (newWidth : ℚ) (s : WidgetState) :
    WidgetState :=
  handleChange false
    (fun _ b => { b with size := (newWidth, b.size.2) }) s

/-- `BackgroundWidget::processHeightSpinBoxValueChanged_` (no checkpoint). -/
def processHeightSpinBoxValueChanged (newHeight : ℚ) (s : WidgetState) :
    WidgetState :=
  handleChange false
    (fun _ b => { b with size := (b.size.1, newHeight) }) s

/-- `BackgroundWidget::processOpacitySpinBoxValueChanged_` (no checkpoint). -/
def processOpacitySpinBoxValueChanged (newOpacity : ℚ) (s : WidgetState) :
    WidgetState :=
  handleChange false (fun _ b => { b with opacity := newOpacity }) s

/-- `BackgroundWidget::processSizeComboBoxCurrentIndexChanged_` (the in-range
index cast to `Background::SizeType`). -/
def processSizeComboBoxCurrentIndexChanged (newSizeType : SizeType)
    (s : WidgetState) : WidgetState :=
  handleChange true (fun _ b => { b with sizeType := newSizeType }) s

/-- `BackgroundWidget::processRepeatComboBoxCurrentIndexChanged_`. -/
def processRepeatComboBoxCurrentIndexChanged (newRepeatType : RepeatType)
    (s : WidgetState) : WidgetState :=
  handleChange true (fun _ b => { b with repeatType := newRepeatType }) s

/-- `BackgroundWidget::processHoldCheckBoxToggled_`. -/
def processHoldCheckBoxToggled (newHold : Bool) (s : WidgetState) :
    WidgetState :=
  handleChange true (fun _ b => { b with hold := newHold }) s

/-- The `editingFinished` slots of the five spin boxes all call
`emitCheckpoint_` unconditionally. -/
def processSpinBoxEditingFinished (s : WidgetState) : WidgetState :=
  emitCheckpoint s

/-- A continuous spin-box edit event (position, size or opacity). -/
inductive SpinEvent where
  | left (x : ℚ)
  | top (x : ℚ)
  | width (x : ℚ)
  | height (x : ℚ)
  | opacity (x : ℚ)

/-- Dispatch of a `valueChanged` event to its slot. -/
def spinStep : SpinEvent → WidgetState → WidgetState
  | SpinEvent.left x, s => processLeftSpinBoxValueChanged x s
  | SpinEvent.top x, s => processTopSpinBoxValueChanged x s
  | SpinEvent.width x, s => processWidthSpinBoxValueChanged x s
  | SpinEvent.height x, s => processHeightSpinBoxValueChanged x s
  | SpinEvent.opacity x, s => processOpacitySpinBoxValueChanged x s

theorem emitCheckpoint_none (s : WidgetState) (hb : s.background = none) :
    emitCheckpoint s = s := by
  simp [emitCheckpoint, hb]

theorem emitCheckpoint_of_eq (s : WidgetState) (b : Background)
    (hb : s.background = some b) (hd : b.data = s.dataBeforeEditing) :
    emitCheckpoint s = s := by
  simp [emitCheckpoint, hb, hd]

theorem emitCheckpoint_of_ne (s : WidgetState) (b : Background)
    (hb : s.background = some b) (hd : b.data ≠ s.dataBeforeEditing) :
    emitCheckpoint s =
      { s with
        dataBeforeEditing := b.data
        undoCount := s.undoCount + 1 } := by
  simp [emitCheckpoint, hb, hd]

theorem emitCheckpoint_background (s : WidgetState) :
    (emitCheckpoint s).background = s.background := by
  rcases hb : s.background with _ | b
  · rw [emitCheckpoint_none s hb, hb]
  · by_cases hd : b.data = s.dataBeforeEditing
    · rw [emitCheckpoint_of_eq s b hb hd, hb]
    · rw [emitCheckpoint_of_ne s b hb hd]
      exact hb

theorem updateFromBackground_none (s : WidgetState)
    (hb : s.background = none) : updateFromBackground s = s := by
  simp [updateFromBackground, hb]

theorem updateFromBackground_some (s : WidgetState) (b : Background)
    (hb : s.background = some b) :
    updateFromBackground s =
      { s with
        colorSelector := b.color
        imageLineEdit := b.imageUrl
        leftSpin := b.position.1
        topSpin := b.position.2
        sizeCombo := b.sizeType
        widthSpin := b.size.1
        heightSpin := b.size.2
        repeatCombo := b.repeatType
        opacitySpin := b.opacity
        holdCheck := b.hold
        dataBeforeEditing :=
          if s.isBeingEdited then s.dataBeforeEditing else b.data
        isUpdatingFromBackground := false } := by
  simp [updateFromBackground, hb]

theorem updateFromBackground_proj (s : WidgetState) :
    (updateFromBackground s).background = s.background ∧
    (updateFromBackground s).undoCount = s.undoCount ∧
    (s.isUpdatingFromBackground = false →
      (updateFromBackground s).isUpdatingFromBackground = false) := by
  rcases hb : s.background with _ | b
  · rw [updateFromBackground_none s hb]
    exact ⟨hb, rfl, fun h => h⟩
  · rw [updateFromBackground_some s b hb]
    exact ⟨hb, rfl, fun _ => rfl⟩

theorem handleChange_none (ck : Bool)
    (upd : WidgetState → Background → Background) (s : WidgetState)
    (hb : s.background = none) : handleChange ck upd s = s := by
  simp [handleChange, hb]

theorem handleChange_guard (ck : Bool)
    (upd : WidgetState → Background → Background) (s : WidgetState)
    (hg : s.isUpdatingFromBackground = true) :
    handleChange ck upd s = s := by
  rcases hb : s.background with _ | b
  · simp [handleChange, hb]
  · simp [handleChange, hb, hg]

theorem handleChange_false_proj
    (upd : WidgetState → Background → Background) (s : WidgetState)
    (b : Background)
    (hb : s.background = some b) (hg : s.isUpdatingFromBackground = false) :
    (handleChange false upd s).background = some (upd s b) ∧
    (handleChange false upd s).isUpdatingFromBackground = false ∧
    (handleChange false upd s).isBeingEdited = false ∧
    (handleChange false upd s).undoCount = s.undoCount ∧
    (handleChange false upd s).dataBeforeEditing = s.dataBeforeEditing := by
  by_cases heq : upd s b = b
  · simp [handleChange, hb, hg, applySetter, heq]
  · simp [handleChange, hb, hg, applySetter, heq, updateFromBackground]

theorem handleChange_true_eq
    (upd : WidgetState → Background → Background) (s : WidgetState)
    (hg : s.isUpdatingFromBackground = false) :
    handleChange true upd s = emitCheckpoint (handleChange false upd s) := by
  rcases hb : s.background with _ | b
  · rw [handleChange_none true upd s hb, handleChange_none false upd s hb,
      emitCheckpoint_none s hb]
  · simp [handleChange, hb, hg]

/-- The invariant maintained along a batch of continuous spin-box edits:
a background remains bound, neither flag is stuck, no undo entry has been
recorded, and the baseline captured before editing is untouched. -/
def SpinInv (s0 s : WidgetState) : Prop :=
  (∃ b, s.background = some b) ∧
  s.isUpdatingFromBackground = false ∧
  s.isBeingEdited = false ∧
  s.undoCount = s0.undoCount ∧
  s.dataBeforeEditing = s0.dataBeforeEditing

theorem spinStep_inv (s0 : WidgetState) (e : SpinEvent) (s : WidgetState)
    (h : SpinInv s0 s) : SpinInv s0 (spinStep e s) := by
  obtain ⟨⟨b, hb⟩, hg, he, hu, hd⟩ := h
  cases e with
  | left x =>
    obtain ⟨p1, p2, p3, p4, p5⟩ := handleChange_false_proj
      (fun _ b => { b with position := (x, b.position.2) }) s b hb hg
    exact ⟨⟨_, p1⟩, p2, p3, p4.trans hu, p5.trans hd⟩
  | top x =>
    obtain ⟨p1, p2, p3, p4, p5⟩ := handleChange_false_proj
      (fun _ b => { b with position := (b.position.1, x) }) s b hb hg
    exact ⟨⟨_, p1⟩, p2, p3, p4.trans hu, p5.trans hd⟩
  | width x =>
    obtain ⟨p1, p2, p3, p4, p5⟩ := handleChange_false_proj
      (fun _ b => { b with size := (x, b.size.2) }) s b hb hg
    exact ⟨⟨_, p1⟩, p2, p3, p4.trans hu, p5.trans hd⟩
  | height x =>
    obtain ⟨p1, p2, p3, p4, p5⟩ := handleChange_false_proj
      (fun _ b => { b with size := (b.size.1, x) }) s b hb hg
    exact ⟨⟨_, p1⟩, p2, p3, p4.trans hu, p5.trans hd⟩
  | opacity x =>
    obtain ⟨p1, p2, p3, p4, p5⟩ := handleChange_false_proj
      (fun _ b => { b with opacity := x }) s b hb hg
    exact ⟨⟨_, p1⟩, p2, p3, p4.trans hu, p5.trans hd⟩

theorem spinFold_inv (s0 : WidgetState) (evs : List SpinEvent)
    (s : WidgetState) (h : SpinInv s0 s) :
    SpinInv s0 (evs.foldl (fun st e => spinStep e st) s) := by
  induction evs generalizing s with
  | nil => exact h
  | cons e rest ih => exact ih _ (spinStep_inv s0 e s h)

/-- C1: `BackgroundWidget::emitCheckpoint_` fires only when the serialized
data differs from the baseline captured at the start of editing, resets the
baseline to the current data when it fires, and an immediately repeated
call with unchanged state is a no-op — two consecutive calls record at
most one undo entry. -/
theorem emitCheckpoint_spec (s : WidgetState) :
    emitCheckpoint (emitCheckpoint s) = emitCheckpoint s ∧
    (emitCheckpoint s).undoCount ≤ s.undoCount + 1 ∧
    (∀ b, s.background = some b →
      (b.data = s.dataBeforeEditing → emitCheckpoint s = s) ∧
      (b.data ≠ s.dataBeforeEditing →
        emitCheckpoint s =
          { s with
            dataBeforeEditing := b.data
            undoCount := s.undoCount + 1 })) := by
  rcases hb : s.background with _ | b
  · rw [emitCheckpoint_none s hb, emitCheckpoint_none s hb]
    refine ⟨rfl, Nat.le_succ _, fun b' hb' => ?_⟩
    exact absurd hb' (by simp)
  · by_cases hd : b.data = s.dataBeforeEditing
    · rw [emitCheckpoint_of_eq s b hb hd, emitCheckpoint_of_eq s b hb hd]
      refine ⟨rfl, Nat.le_succ _, fun b' hb' => ?_⟩
      injection hb' with hbb
      subst hbb
      exact ⟨fun _ => rfl, fun hnd => absurd hd hnd⟩
    · rw [emitCheckpoint_of_ne s b hb hd]
      refine ⟨?_, by simp, fun b' hb' => ?_⟩
      · exact emitCheckpoint_of_eq _ b hb rfl
      · injection hb' with hbb
        subst hbb
        exact ⟨fun he => absurd he hd, fun _ => by rw [hb]⟩

/-- C8: with no bound background, every widget event handler and
`emitCheckpoint_` leaves the state untouched: the null pointer is tested
before any access. -/
theorem null_background_no_op (s : WidgetState) (hb : s.background = none) :
    (∀ c, processColorSelectorColorChanged c s = s) ∧
    processImageLineEditEditingFinished s = s ∧
    (∀ fs, processImageBrowseButtonClicked fs s = s) ∧
    (∀ x, processLeftSpinBoxValueChanged x s = s) ∧
    (∀ x, processTopSpinBoxValueChanged x s = s) ∧
    (∀ x, processWidthSpinBoxValueChanged x s = s) ∧
    (∀ x, processHeightSpinBoxValueChanged x s = s) ∧
    (∀ x, processOpacitySpinBoxValueChanged x s = s) ∧
    (∀ t, processSizeComboBoxCurrentIndexChanged t s = s) ∧
    (∀ r, processRepeatComboBoxCurrentIndexChanged r s = s) ∧
    (∀ hv, processHoldCheckBoxToggled hv s = s) ∧
    emitCheckpoint s = s := by
  exact ⟨fun c => handleChange_none _ _ s hb,
    handleChange_none _ _ s hb,
    fun fs => handleChange_none _ _ s hb,
    fun x => handleChange_none _ _ s hb,
    fun x => handleChange_none _ _ s hb,
    fun x => handleChange_none _ _ s hb,
    fun x => handleChange_none _ _ s hb,
    fun x => handleChange_none _ _ s hb,
    fun t => handleChange_none _ _ s hb,
    fun r => handleChange_none _ _ s hb,
    fun hv => handleChange_none _ _ s hb,
    emitCheckpoint_none s hb⟩

/-- C9: while `updateFromBackground_` holds the `isUpdatingFromBackground_`
guard, every widget-change handler returns without touching the background
or the undo history; `updateFromBackground_` itself never changes the bound
background or records an undo entry, and the guard is down again when it
returns. -/
theorem guard_blocks_writeback (s : WidgetState) :
    (s.isUpdatingFromBackground = true →
      (∀ c, processColorSelectorColorChanged c s = s) ∧
      processImageLineEditEditingFinished s = s ∧
      (∀ fs, processImageBrowseButtonClicked fs s = s) ∧
      (∀ x, processLeftSpinBoxValueChanged x s = s) ∧
      (∀ x, processTopSpinBoxValueChanged x s = s) ∧
      (∀ x, processWidthSpinBoxValueChanged x s = s) ∧
      (∀ x, processHeightSpinBoxValueChanged x s = s) ∧
      (∀ x, processOpacitySpinBoxValueChanged x s = s) ∧
      (∀ t, processSizeComboBoxCurrentIndexChanged t s = s) ∧
      (∀ r, processRepeatComboBoxCurrentIndexChanged r s = s) ∧
      (∀ hv, processHoldCheckBoxToggled hv s = s)) ∧
    (updateFromBackground s).background = s.background ∧
    (updateFromBackground s).undoCount = s.undoCount ∧
    (s.isUpdatingFromBackground = false →
      (updateFromBackground s).isUpdatingFromBackground = false) := by
  obtain ⟨u1, u2, u3⟩ := updateFromBackground_proj s
  refine ⟨fun hg => ?_, u1, u2, u3⟩
  exact ⟨fun c => handleChange_guard _ _ s hg,
    handleChange_guard _ _ s hg,
    fun fs => handleChange_guard _ _ s hg,
    fun x => handleChange_guard _ _ s hg,
    fun x => handleChange_guard _ _ s hg,
    fun x => handleChange_guard _ _ s hg,
    fun x => handleChange_guard _ _ s hg,
    fun x => handleChange_guard _ _ s hg,
    fun t => handleChange_guard _ _ s hg,
    fun r => handleChange_guard _ _ s hg,
    fun hv => handleChange_guard _ _ s hg⟩

/-- C7: during a batch of continuous spin-box edits each `valueChanged`
event mutates the bound background without recording any undo entry and
without disturbing the baseline captured before editing started; the single
`editingFinished` call ending the batch records exactly one undo entry when
the background's data then differs from that baseline, and none otherwise. -/
theorem spin_batch_single_checkpoint (s : WidgetState) (b : Background)
    (evs : List SpinEvent)
    (hb : s.background = some b) (hg : s.isUpdatingFromBackground = false)
    (he : s.isBeingEdited = false) :
    (evs.foldl (fun st e => spinStep e st) s).undoCount = s.undoCount ∧
    (evs.foldl (fun st e => spinStep e st) s).dataBeforeEditing =
      s.dataBeforeEditing ∧
    (∀ x, (spinStep (SpinEvent.left x) s).background =
        some { b with position := (x, b.position.2) } ∧
      (spinStep (SpinEvent.left x) s).undoCount = s.undoCount) ∧
    (∀ x, (spinStep (SpinEvent.opacity x) s).background =
        some { b with opacity := x } ∧
      (spinStep (SpinEvent.opacity x) s).undoCount = s.undoCount) ∧
    (emitCheckpoint (evs.foldl (fun st e => spinStep e st) s)).undoCount =
      s.undoCount +
        (if (evs.foldl (fun st e => spinStep e st) s).background.map
            Background.data = some s.dataBeforeEditing then 0 else 1) := by
  obtain ⟨⟨b', hb'⟩, hg', he', hu', hd'⟩ :=
    spinFold_inv s evs s ⟨⟨b, hb⟩, hg, he, rfl, rfl⟩
  refine ⟨hu', hd', fun x => ?_, fun x => ?_, ?_⟩
  · obtain ⟨p1, _, _, p4, _⟩ := handleChange_false_proj
      (fun _ b => { b with position := (x, b.position.2) }) s b hb hg
    exact ⟨p1, p4⟩
  · obtain ⟨p1, _, _, p4, _⟩ := handleChange_false_proj
      (fun _ b => { b with opacity := x }) s b hb hg
    exact ⟨p1, p4⟩
  · rw [hb']
    by_cases hdd : b'.data = s.dataBeforeEditing
    · rw [emitCheckpoint_of_eq _ b' hb' (hdd.trans hd'.symm)]
      have hxx : (some b').map Background.data = some s.dataBeforeEditing := by
        simp only [Option.map_some']
        rw [show Background.data b' = b' from rfl,
          show (b' : Background) = s.dataBeforeEditing from hdd]
      rw [if_pos hxx, hu']
      rfl
    · rw [emitCheckpoint_of_ne _ b' hb' (fun e => hdd (e.trans hd'))]
      have hxx :
          ¬ ((some b').map Background.data = some s.dataBeforeEditing) := by
        simp only [Option.map_some', Option.some.injEq]
        exact hdd
      rw [if_neg hxx]
      show (List.foldl (fun st e => spinStep e st) s evs).undoCount + 1 =
        s.undoCount + 1
      rw [hu']

/-- C10: when the file dialog returns no filenames while a background is
bound, the handler still calls `setImageUrl` with the empty string — the
URL is cleared rather than left unchanged — and a checkpoint is recorded
exactly when that clearing changed the serialized data. -/
theorem browse_cancel_clears_url (s : WidgetState) (b : Background)
    (hb : s.background = some b) (hg : s.isUpdatingFromBackground = false)
    (hd : s.dataBeforeEditing = b.data) :
    (processImageBrowseButtonClicked [] s).background =
      some { b with imageUrl := [] } ∧
    (processImageBrowseButtonClicked [] s).undoCount =
      s.undoCount + (if b.imageUrl = [] then 0 else 1) := by
  have hrw : processImageBrowseButtonClicked [] s =
      emitCheckpoint (handleChange false
        (fun _ b => { b with imageUrl := (detectWildcard []).1 }) s) :=
    handleChange_true_eq _ s hg
  obtain ⟨p1, p2, p3, p4, p5⟩ := handleChange_false_proj
    (fun _ b => { b with imageUrl := (detectWildcard []).1 }) s b hb hg
  have hnil : (detectWildcard ([] : List QStr)).1 = ([] : QStr) := rfl
  rw [hnil] at hrw p1 p4 p5
  by_cases hurl : b.imageUrl = []
  · have hbb : ({ b with imageUrl := ([] : QStr) } : Background) = b := by
      rw [← hurl]
    rw [hbb] at p1
    constructor
    · rw [hrw, emitCheckpoint_background, p1, hbb]
    · rw [hrw, emitCheckpoint_of_eq _ b p1 (by rw [p5, hd]), p4,
        if_pos hurl]
      rfl
  · have hne : ({ b with imageUrl := ([] : QStr) } : Background) ≠ b := by
      intro e
      exact hurl (congrArg Background.imageUrl e).symm
    constructor
    · rw [hrw, emitCheckpoint_background, p1]
    · rw [hrw, emitCheckpoint_of_ne _ _ p1
        (by rw [p5, hd]; exact fun e => hne e), if_neg hurl]
      simp [p4]

/-- C6 (amended): when two or more files are selected, the warning text
lists exactly the files failing the code's consistency test — first
`prefixLength` characters equal to the prefix, last `suffixLength`
characters equal to the suffix, middle empty (fallback) or an `int`; the
test accepts with overlap a file shorter than prefix and suffix combined —
and regardless of the warning the inferred pattern is set as the
background's image URL: the operation is never aborted. -/
theorem browse_warning_nonfatal (f0 f1 : QStr) (rest : List QStr)
    (s : WidgetState) (b : Background) (p sl : Nat) (pre suf : QStr)
    (hb : s.background = some b) (hg : s.isUpdatingFromBackground = false)
    (hp : p = inferredPrefixLen (f0 :: f1 :: rest) f0 f1)
    (hsl : sl = f0.length - p - wildcardLength f0 p)
    (hpre : pre = qleft f0 p) (hsuf : suf = qright f0 sl) :
    (detectWildcard (f0 :: f1 :: rest)).1 = pre ++ '*' :: suf ∧
    (detectWildcard (f0 :: f1 :: rest)).2 =
      newlineSeparated ((f0 :: f1 :: rest).filter
        (fun f => !(isConsistent p sl pre suf f))) ∧
    (processImageBrowseButtonClicked (f0 :: f1 :: rest) s).background =
      some { b with imageUrl := pre ++ '*' :: suf } := by
  subst hp
  subst hsl
  subst hpre
  subst hsuf
  refine ⟨rfl, ?_, ?_⟩
  · exact inconsistentConcat_eq _ _ _ _ _
  · have hrw : processImageBrowseButtonClicked (f0 :: f1 :: rest) s =
        emitCheckpoint (handleChange false
          (fun _ b =>
            { b with imageUrl := (detectWildcard (f0 :: f1 :: rest)).1 })
          s) :=
      handleChange_true_eq _ s hg
    obtain ⟨p1, _, _, _, _⟩ := handleChange_false_proj
      (fun _ b =>
        { b with imageUrl := (detectWildcard (f0 :: f1 :: rest)).1 }) s b
      hb hg
    rw [hrw, emitCheckpoint_background, p1]
    rfl

/-- A concrete background: white, no image, default geometry. -/
def bg0 : Background :=
  { color := ⟨255, 255, 255, 255⟩
    imageUrl := []
    position := (0, 0)
    sizeType := SizeType.Cover
    size := (1280, 720)
    repeatType := RepeatType.NoRepeat
    opacity := 1
    hold := true }

/-- `bg0` with a different opacity (a distinct property bundle). -/
def bg1 : Background := { bg0 with opacity := 0 }

/-- `bg0` with a non-empty image URL. -/
def bgUrl : Background := { bg0 with imageUrl := "x.png".toList }

/-- A quiescent widget state bound to `bg0`. -/
def ws0 : WidgetState :=
  { background := some bg0
    dataBeforeEditing := bg0
    isUpdatingFromBackground := false
    isBeingEdited := false
    undoCount := 0
    colorSelector := bg0.color
    imageLineEdit := []
    leftSpin := 0
    topSpin := 0
    sizeCombo := SizeType.Cover
    widthSpin := 1280
    heightSpin := 720
    repeatCombo := RepeatType.NoRepeat
    opacitySpin := 1
    holdCheck := true }

/-- `ws0` with a stale baseline differing from the bound data. -/
def wsDirty : WidgetState := { ws0 with dataBeforeEditing := bg1 }

/-- `ws0` with no bound background. -/
def wsNone : WidgetState := { ws0 with background := none }

/-- `ws0` with the update guard raised. -/
def wsGuard : WidgetState := { ws0 with isUpdatingFromBackground := true }

/-- A quiescent widget state bound to `bgUrl`. -/
def wsUrl : WidgetState :=
  { ws0 with background := some bgUrl, dataBeforeEditing := bgUrl }

theorem emitCheckpoint_spec_witness :
    emitCheckpoint (emitCheckpoint wsDirty) = emitCheckpoint wsDirty ∧
    (emitCheckpoint wsDirty).undoCount ≤ wsDirty.undoCount + 1 ∧
    emitCheckpoint wsDirty =
      { wsDirty with
        dataBeforeEditing := Background.data bg0
        undoCount := wsDirty.undoCount + 1 } := by
  obtain ⟨h1, h2, h3⟩ := emitCheckpoint_spec wsDirty
  exact ⟨h1, h2, (h3 bg0 rfl).2 (by decide)⟩

theorem spin_batch_single_checkpoint_witness :
    ([SpinEvent.left 5].foldl (fun st e => spinStep e st) ws0).undoCount =
      ws0.undoCount ∧
    ([SpinEvent.left 5].foldl (fun st e => spinStep e st)
        ws0).dataBeforeEditing = ws0.dataBeforeEditing ∧
    (spinStep (SpinEvent.left 5) ws0).background =
      some { bg0 with position := (5, bg0.position.2) } ∧
    (emitCheckpoint ([SpinEvent.left 5].foldl (fun st e => spinStep e st)
        ws0)).undoCount =
      ws0.undoCount +
        (if ([SpinEvent.left 5].foldl (fun st e => spinStep e st)
            ws0).background.map Background.data =
            some ws0.dataBeforeEditing then 0 else 1) := by
  obtain ⟨h1, h2, h3, h4, h5⟩ :=
    spin_batch_single_checkpoint ws0 bg0 [SpinEvent.left 5] rfl rfl rfl
  exact ⟨h1, h2, (h3 5).1, h5⟩

theorem null_background_no_op_witness :
    processColorSelectorColorChanged ⟨0, 0, 0, 0⟩ wsNone = wsNone ∧
    processImageLineEditEditingFinished wsNone = wsNone ∧
    processImageBrowseButtonClicked [] wsNone = wsNone ∧
    processLeftSpinBoxValueChanged 3 wsNone = wsNone ∧
    processOpacitySpinBoxValueChanged 0 wsNone = wsNone ∧
    processSizeComboBoxCurrentIndexChanged SizeType.Manual wsNone =
      wsNone ∧
    processHoldCheckBoxToggled false wsNone = wsNone ∧
    emitCheckpoint wsNone = wsNone := by
  obtain ⟨h1, h2, h3, h4, _, _, _, h8, h9, _, h11, h12⟩ :=
    null_background_no_op wsNone rfl
  exact ⟨h1 _, h2, h3 _, h4 _, h8 _, h9 _, h11 _, h12⟩

theorem guard_blocks_writeback_witness :
    processColorSelectorColorChanged ⟨1, 2, 3, 4⟩ wsGuard = wsGuard ∧
    processLeftSpinBoxValueChanged 7 wsGuard = wsGuard ∧
    processHoldCheckBoxToggled false wsGuard = wsGuard ∧
    (updateFromBackground ws0).background = ws0.background ∧
    (updateFromBackground ws0).undoCount = ws0.undoCount ∧
    (updateFromBackground ws0).isUpdatingFromBackground = false := by
  obtain ⟨hg, _, _, _⟩ := guard_blocks_writeback wsGuard
  obtain ⟨g1, _, _, g4, _, _, _, _, _, _, g11⟩ := hg rfl
  obtain ⟨_, u2, u3, u4⟩ := guard_blocks_writeback ws0
  exact ⟨g1 _, g4 _, g11 _, u2, u3, u4 rfl⟩

theorem browse_cancel_clears_url_witness :
    (processImageBrowseButtonClicked [] wsUrl).background =
      some { bgUrl with imageUrl := [] } ∧
    (processImageBrowseButtonClicked [] wsUrl).undoCount =
      wsUrl.undoCount + (if bgUrl.imageUrl = [] then 0 else 1) :=
  browse_cancel_clears_url wsUrl bgUrl rfl rfl rfl

theorem browse_warning_nonfatal_witness :
    (detectWildcard ["a1.png".toList, "a2.png".toList]).1 =
      "a".toList ++ '*' :: ".png".toList ∧
    (detectWildcard ["a1.png".toList, "a2.png".toList]).2 =
      newlineSeparated (["a1.png".toList, "a2.png".toList].filter
        (fun f => !(isConsistent 1 4 "a".toList ".png".toList f))) ∧
    (processImageBrowseButtonClicked ["a1.png".toList, "a2.png".toList]
        ws0).background =
      some { bg0 with imageUrl := "a".toList ++ '*' :: ".png".toList } :=
  browse_warning_nonfatal "a1.png".toList "a2.png".toList [] ws0 bg0 1 4
    "a".toList ".png".toList rfl rfl (by decide) (by decide) (by decide)
    (by decide)

end BackgroundWidget

theorem fixup_spec_witness :
    ImageUrlValidator.fixup ['x', '*', 'y'] =
      List.filter (fun c => c ≠ '*') ['x'] ++ '*' :: ['y'] :=
  (ImageUrlValidator.fixup_spec ['x', '*', 'y']).2.2.2 ['x'] ['y'] rfl
    (by decide) (by decide)

theorem validate_spec_witness :
    (['a', '*', 'b'] : QStr).count '*' ≤ 1 :=
  ((ImageUrlValidator.validate_spec ['a', '*', 'b']).1.mp (by decide)).1
